import Mathlib

/-!
# Upload-and-inference state machine of `PneumoniaClassifier` (App.jsx)

A shallow embedding of the React component in
`src/pneumonia-classifier-ui/src/App.jsx`.  The component state (the
`useState` cells `mode`, `files`, `previews`, `loading`, `result`,
`batchResults`) is a record; every event handler is a function on that
record.  The two kinds of suspended work the handlers start, `fetch` calls
and `FileReader`s, are kept as explicit lists of outstanding jobs, and their
completions are events of their own, so every interleaving the event loop
allows is a list of events.  Each event is handled against the state of the
latest render, and the `set...` calls of one handler take effect together.

`RequestStatus` of the specification is read off the cells: a request is in
flight exactly while `loading` is true; a failure leaves no trace but an
`alert`.
-/

namespace PneumoniaUI

/-! ## Data model -/

/-- The `mode` cell: the string 'single' or 'batch' (App.jsx line 5). -/
inductive Mode where
  | single
  | batch
deriving DecidableEq, Repr

/-- A browser `File`: its name, its MIME `type` and its bytes. -/
structure File where
  name : String
  type : String
  bytes : List Nat
deriving DecidableEq, Repr

/-- The value of `reader.result` after `readAsDataURL`: a data URL, kept as
the MIME type and the payload it encodes. -/
structure Preview where
  mime : String
  payload : List Nat
deriving DecidableEq, Repr

/-- Decoding of one file by `FileReader.readAsDataURL` (lines 80 and 94). -/
def readAsDataURL (f : File) : Preview :=
  ⟨f.type, f.bytes⟩

/-- JavaScript `s.startsWith(p)`. -/
def startsWith (s p : String) : Bool :=
  p.data.isPrefixOf s.data

/-- A finite non-negative binary64 number `mant * 2 ^ exp`. -/
structure F64 where
  mant : Nat
  exp : Int
deriving DecidableEq, Repr

/-- The `probabilities` object of a `/predict` body. -/
structure Probabilities where
  NORMAL : F64
  PNEUMONIA : F64
deriving DecidableEq, Repr

/-- Body of a `/predict` response, with the field names the view reads
(lines 360 to 403). -/
structure SingleResult where
  prediction : String
  confidence : F64
  probabilities : Probabilities
  device_used : String
  model_architecture : String
deriving DecidableEq, Repr

/-- One entry of `results` in a `/predict-batch` body (lines 428 to 452). -/
structure BatchItem where
  filename : String
  prediction : String
  confidence : F64
deriving DecidableEq, Repr

/-- The `summary` object of a `/predict-batch` body. -/
structure Summary where
  normal : Nat
  pneumonia : Nat
deriving DecidableEq, Repr

/-- Body of a `/predict-batch` response (lines 407 to 455). -/
structure BatchResult where
  total_images : Nat
  summary : Summary
  results : List BatchItem
deriving DecidableEq, Repr

/-- The two inference endpoints the component posts to. -/
inductive Endpoint where
  | predict
  | predictBatch
deriving DecidableEq, Repr

/-- An outstanding `fetch`: the endpoint and the files appended to its
`FormData` (lines 105 to 112 and 130 to 139). -/
structure Request where
  url : Endpoint
  body : List File
deriving DecidableEq, Repr

/-- How an outstanding `fetch` ends: the promise rejects, the response has
`ok` false, `response.json()` rejects, or a body of the endpoint's shape is
parsed. -/
inductive Outcome where
  | rejected
  | notOk
  | badJson
  | okSingle (data : SingleResult)
  | okBatch (data : BatchResult)
deriving DecidableEq, Repr

/-- The outcomes that take the `catch` branch of lines 118 and 145. -/
def Outcome.isFailure : Outcome → Bool
  | .rejected => true
  | .notOk => true
  | .badJson => true
  | .okSingle _ => false
  | .okBatch _ => false

/-- The readers started by one call of `handleFiles`.  In the batch branch
`files` is `limitedFiles` and `newPreviews` is the array the `onloadend`
callbacks push to (lines 85 to 95); in the single branch `files` is the one
file read (lines 76 to 80).  `waiting` lists the indices of the readers whose
`loadend` has not fired yet. -/
structure ReadJob where
  batch : Bool
  files : List File
  waiting : List Nat
  newPreviews : List Preview
deriving DecidableEq, Repr

/-- The component with its outstanding work: the six `useState` cells of
lines 5 to 10, the `fetch` calls not settled yet, the reader groups started
so far, and the messages passed to `alert`. -/
structure World where
  mode : Mode
  files : List File
  previews : List Preview
  loading : Bool
  result : Option SingleResult
  batchResults : Option BatchResult
  requests : List Request
  readers : List ReadJob
  alerts : List String
deriving DecidableEq, Repr

/-- State after the first render: the `useState` initial values. -/
def init : World :=
  { mode := .single, files := [], previews := [], loading := false,
    result := none, batchResults := none, requests := [], readers := [],
    alerts := [] }

/-! ## Event handlers -/

/-- The readers of a batch selection: one per file, none fired yet. -/
def ReadJob.start (batch : Bool) (fs : List File) : ReadJob :=
  { batch := batch, files := fs, waiting := List.range fs.length,
    newPreviews := [] }

/-- The `onloadend` callback of reader `i` of a group (lines 77 to 79 and 88
to 93): returns the group afterwards and the argument of `setPreviews` when
the callback calls it. -/
def ReadJob.loadend (j : ReadJob) (i : Nat) : ReadJob × Option (List Preview) :=
  if i ∈ j.waiting then
    match j.files[i]? with
    | none => (j, none)
    | some f =>
      if j.batch then
        let acc := j.newPreviews ++ [readAsDataURL f]
        let j1 := { j with waiting := j.waiting.erase i, newPreviews := acc }
        if acc.length = j.files.length then (j1, some acc) else (j1, none)
      else
        ({ j with waiting := j.waiting.erase i }, some [readAsDataURL f])
  else (j, none)

/-- Runs the `loadend` events of one reader group in the given order and
collects every collection passed to `setPreviews`, oldest first. -/
def ReadJob.run (j : ReadJob) : List Nat → ReadJob × List (List Preview)
  | [] => (j, [])
  | i :: rest =>
    let r := j.loadend i
    let t := ReadJob.run r.1 rest
    match r.2 with
    | none => t
    | some ps => (t.1, ps :: t.2)

/-- Function `handleFiles` (lines 73 to 99). -/
def handleFiles (w : World) (newFiles : List File) : World :=
  let w1 : World :=
    match w.mode, newFiles with
    | .single, f :: _ =>
      { w with files := [f], readers := w.readers ++ [ReadJob.start false [f]] }
    | .single, [] => w
    | .batch, _ =>
      let limitedFiles := newFiles.take 50
      { w with files := limitedFiles,
               readers := w.readers ++ [ReadJob.start true limitedFiles] }
  { w1 with result := none, batchResults := none }

/-- Function `handleDrop` (lines 56 to 66); `dragActive` is presentation
state and is left out. -/
def handleDrop (w : World) (dropped : List File) : World :=
  handleFiles w (dropped.filter fun file => startsWith file.type "image/")

/-- Function `handleFileInput` (lines 68 to 71). -/
def handleFileInput (w : World) (selected : List File) : World :=
  handleFiles w selected

/-- Function `resetUpload` (lines 153 to 161); the reset of the DOM input's
`value` is left out. -/
def resetUpload (w : World) : World :=
  { w with files := [], previews := [], result := none, batchResults := none }

/-- The `onClick` of the two mode buttons (lines 241 and 251):
`setMode(m); resetUpload();`. -/
def modeClick (w : World) (m : Mode) : World :=
  resetUpload { w with mode := m }

/-- Function `predictSingle` up to its `await` (lines 101 to 112). -/
def predictSingle (w : World) : World :=
  match w.files with
  | [] => w
  | f :: _ =>
    { w with loading := true, requests := w.requests ++ [⟨.predict, [f]⟩] }

/-- Function `predictBatch` up to its `await` (lines 126 to 139). -/
def predictBatch (w : World) : World :=
  match w.files with
  | [] => w
  | _ :: _ =>
    { w with loading := true,
             requests := w.requests ++ [⟨.predictBatch, w.files⟩] }

/-- A click on the analyze button (lines 323 to 326): the button is
`disabled` while `loading`, so the click reaches no handler then; otherwise
it calls `predictSingle` or `predictBatch` by mode. -/
def analyzeClick (w : World) : World :=
  if w.loading then w
  else
    match w.mode with
    | .single => predictSingle w
    | .batch => predictBatch w

/-- The rest of `predictSingle` or `predictBatch` after the `await` (lines
114 to 123 and 141 to 150), for outstanding request number `i`: on a parsed
body `setResult` or `setBatchResults`, otherwise the `catch` branch with its
`alert`; `finally` sets `loading` to false.  A body of the other endpoint's
shape is outside the service contract and is no event. -/
def settle (w : World) (i : Nat) (o : Outcome) : World :=
  match w.requests[i]? with
  | none => w
  | some r =>
    let rest := w.requests.eraseIdx i
    match r.url, o with
    | .predict, .okSingle data =>
      { w with requests := rest, result := some data, loading := false }
    | .predictBatch, .okBatch data =>
      { w with requests := rest, batchResults := some data, loading := false }
    | .predict, .okBatch _ => w
    | .predictBatch, .okSingle _ => w
    | .predict, _ =>
      { w with requests := rest, loading := false,
               alerts := w.alerts ++
                 ["Prediction failed. Please ensure the backend is running."] }
    | .predictBatch, _ =>
      { w with requests := rest, loading := false,
               alerts := w.alerts ++
                 ["Batch prediction failed. Please ensure the backend is running."] }

/-- The `loadend` event of reader `i` of reader group `g`. -/
def loadend (w : World) (g i : Nat) : World :=
  match w.readers[g]? with
  | none => w
  | some j =>
    let r := j.loadend i
    let w1 := { w with readers := w.readers.set g r.1 }
    match r.2 with
    | none => w1
    | some ps => { w1 with previews := ps }

/-- The events the component reacts to. -/
inductive Event where
  | drop (dropped : List File)
  | browse (selected : List File)
  | setMode (m : Mode)
  | clear
  | analyze
  | response (i : Nat) (o : Outcome)
  | decoded (g i : Nat)
deriving DecidableEq, Repr

/-- One turn of the event loop. -/
def step (w : World) : Event → World
  | .drop fs => handleDrop w fs
  | .browse fs => handleFileInput w fs
  | .setMode m => modeClick w m
  | .clear => resetUpload w
  | .analyze => analyzeClick w
  | .response i o => settle w i o
  | .decoded g i => loadend w g i

/-- The state after a sequence of events. -/
def run (w : World) (evs : List Event) : World :=
  evs.foldl step w

/-! ## Result view

The arithmetic of `(value * 100).toFixed(2)`: binary64 multiplication and
`Number.prototype.toFixed` as ECMA-262 defines them, on the finite
non-negative numbers a confidence can be. -/

/-- Number of binary digits of `p`, for `p ≤ fuel`. -/
def bitLengthAux : Nat → Nat → Nat
  | 0, _ => 0
  | fuel + 1, p => if p = 0 then 0 else bitLengthAux fuel (p / 2) + 1

/-- Number of binary digits of `p`. -/
def bitLength (p : Nat) : Nat :=
  bitLengthAux p p

/-- Drops the `s` low bits of `p`, rounding to nearest, ties to even. -/
def roundShift (p s : Nat) : Nat :=
  let q := p / 2 ^ s
  let r := p % 2 ^ s
  if 2 ^ s < 2 * r ∨ (2 * r = 2 ^ s ∧ q % 2 = 1) then q + 1 else q

/-- The JavaScript `*` on finite non-negative binary64 numbers whose product
is below `2 ^ 1024`: the exact product rounded to 53 significant bits (to a
multiple of `2 ^ (-1074)` in the subnormal range), ties to even. -/
def F64.mul (x y : F64) : F64 :=
  let p := x.mant * y.mant
  let e := x.exp + y.exp
  let s := max (bitLength p - 53) (-1074 - e).toNat
  ⟨roundShift p s, e + s⟩

/-- The literal `100` of lines 167 and 381. -/
def hundred : F64 := ⟨100, 0⟩

/-- The integer `n` for which `n / 10 ^ f - x` is as close to zero as
possible, the larger one when there are two (step 11.a of
`Number.prototype.toFixed`). -/
def F64.scaledNearest (x : F64) (f : Nat) : Nat :=
  match x.exp with
  | .ofNat e => x.mant * 2 ^ e * 10 ^ f
  | .negSucc k => (2 * x.mant * 10 ^ f + 2 ^ (k + 1)) / 2 ^ (k + 2)

/-- Whether `x < 10 ^ 21`. -/
def F64.below1e21 (x : F64) : Bool :=
  match x.exp with
  | .ofNat e => decide (x.mant * 2 ^ e < 10 ^ 21)
  | .negSucc k => decide (x.mant < 10 ^ 21 * 2 ^ (k + 1))

/-- JavaScript `x.toFixed(f)` for a finite non-negative `x` (ECMA-262,
`Number.prototype.toFixed`, steps 11 and 12); `none` stands for the branch
`x ≥ 10 ^ 21`, which is not modelled. -/
def F64.toFixed (x : F64) (f : Nat) : Option String :=
  if x.below1e21 then
    let n := x.scaledNearest f
    let m := Nat.toDigits 10 n
    if f = 0 then some (String.mk m)
    else
      let m := if m.length ≤ f then List.replicate (f + 1 - m.length) '0' ++ m else m
      let k := m.length
      some (String.mk (m.take (k - f) ++ '.' :: m.drop (k - f)))
  else none

/-- The two colour branches of the single result card (lines 362 to 377). -/
inductive Branch where
  | pneumonia
  | normal
deriving DecidableEq, Repr

/-- What the single result card shows of `result` (lines 360 to 403): the
branch chosen by `result.prediction === 'PNEUMONIA'`, the label, the
confidence text and the two `ConfidenceBar` percentages. -/
structure SingleView where
  branch : Branch
  label : String
  confidence : Option String
  normalBar : Option String
  pneumoniaBar : Option String
deriving DecidableEq, Repr

/-- The percentage text of `ConfidenceBar` (line 167) and of line 381:
`(value * 100).toFixed(2)`. -/
def percent (value : F64) : Option String :=
  (value.mul hundred).toFixed 2

/-- The single result card for a stored `result`. -/
def singleView (r : SingleResult) : SingleView :=
  { branch := if r.prediction = "PNEUMONIA" then .pneumonia else .normal,
    label := r.prediction,
    confidence := percent r.confidence,
    normalBar := percent r.probabilities.NORMAL,
    pneumoniaBar := percent r.probabilities.PNEUMONIA }

/-! ## Sample data -/

/-- A PNG chest X-ray. -/
def xray : File := ⟨"chest.png", "image/png", [137, 80, 78, 71]⟩

/-- A second image file. -/
def scan : File := ⟨"scan.jpg", "image/jpeg", [255, 216, 255]⟩

/-- A third image file. -/
def film : File := ⟨"film.png", "image/png", [137, 80, 78, 72]⟩

/-- A file that is no image. -/
def report : File := ⟨"report.pdf", "application/pdf", [37, 80, 68, 70]⟩

/-- The binary64 number nearest to 0.88. -/
def f088 : F64 := ⟨7926335344172073, -53⟩

/-- The binary64 number nearest to 0.12. -/
def f012 : F64 := ⟨8646911284551352, -56⟩

/-- The binary64 number nearest to 0.97. -/
def f097 : F64 := ⟨8736983277098762, -53⟩

/-- A `/predict` body: PNEUMONIA with confidence 0.88. -/
def cannedSingle : SingleResult :=
  { prediction := "PNEUMONIA", confidence := f088,
    probabilities := ⟨f012, f088⟩,
    device_used := "cpu", model_architecture := "ResNet" }

/-- A `/predict-batch` body for three images. -/
def cannedBatch : BatchResult :=
  { total_images := 3, summary := ⟨2, 1⟩,
    results := [⟨"chest.png", "NORMAL", f097⟩, ⟨"scan.jpg", "PNEUMONIA", f088⟩,
                ⟨"film.png", "NORMAL", f097⟩] }

/-! ## Derived notions used by the statements -/

/-- The cap on the selection: one file in single mode (line 75), fifty in
batch mode (line 82). -/
def capOk (w : World) : Prop :=
  w.files.length ≤ (match w.mode with | .single => 1 | .batch => 50)

instance (w : World) : Decidable (capOk w) := by
  unfold capOk; infer_instance

/-- The request the analyze click issues in state `w`: single mode posts the
first file to `/predict`, batch mode posts every file to `/predict-batch`. -/
def issued (w : World) : Request :=
  match w.mode with
  | .single => ⟨.predict, w.files.take 1⟩
  | .batch => ⟨.predictBatch, w.files⟩

/-- A submission from state `w` whose request settles with outcome `o`: the
analyze click, then the completion of the request that click appended. -/
def submitThen (w : World) (o : Outcome) : World :=
  settle (analyzeClick w) w.requests.length o

/-- While `loading` is false no request is outstanding, and never more than
one is. -/
def oneOutstanding (w : World) : Prop :=
  w.requests.length ≤ 1 ∧ (w.loading = false → w.requests = [])

/-- The events that change the selection: both intake paths, the mode
buttons and the clear button. -/
def Event.isSelectionChange : Event → Bool
  | .drop _ => true
  | .browse _ => true
  | .setMode _ => true
  | .clear => true
  | _ => false

/-- The events that are neither a selection change nor a response: analyze
clicks and reader completions. -/
def Event.isQuiet : Event → Bool
  | .analyze => true
  | .decoded _ _ => true
  | _ => false

/-- A parsed body of the shape the mode's endpoint returns. -/
def bodyFor (m : Mode) (rs : SingleResult) (rb : BatchResult) : Outcome :=
  match m with
  | .single => .okSingle rs
  | .batch => .okBatch rb

/-- The cells a quiet event cannot change while a request is in flight. -/
def sameCore (v w : World) : Prop :=
  v.mode = w.mode ∧ v.files = w.files ∧ v.loading = w.loading ∧
  v.requests = w.requests ∧ v.result = w.result ∧
  v.batchResults = w.batchResults

/-- The decoded previews of the files whose readers completed, listed in the
order `order` in which they completed. -/
def previewsIn (fs : List File) (order : List Nat) : List Preview :=
  order.filterMap fun i => fs[i]?.map readAsDataURL

/-- State of a batch reader group over `fs` once the readers listed in `done`
have completed. -/
def ReadJob.after (j : ReadJob) (fs : List File) (done : List Nat) : Prop :=
  j.batch = true ∧ j.files = fs ∧ j.newPreviews = previewsIn fs done ∧
  j.waiting.Nodup ∧ ∀ i, i ∈ j.waiting ↔ i < fs.length ∧ i ∉ done

/-- The value of a binary64 number as a rational. -/
def F64.toRat (x : F64) : ℚ :=
  x.mant * (2 : ℚ) ^ x.exp

/-- A binary64 number in the closed interval from 0 to 1. -/
def F64.isUnit (x : F64) : Prop :=
  x.mant < 2 ^ 53 ∧ -1074 ≤ x.exp ∧ x.exp ≤ 0 ∧ x.mant ≤ 2 ^ x.exp.natAbs

/-! ## Selection: cardinality caps -/

theorem capOk_init : capOk init := by
  simp [capOk, init]

theorem capOk_handleFiles (w : World) (fs : List File) (h : capOk w) :
    capOk (handleFiles w fs) := by
  unfold capOk handleFiles at *
  cases hm : w.mode <;> cases fs <;> simp_all [List.length_take]

theorem capOk_resetUpload (w : World) : capOk (resetUpload w) := by
  unfold capOk resetUpload
  cases w.mode <;> simp

theorem capOk_modeClick (w : World) (m : Mode) : capOk (modeClick w m) := by
  unfold capOk modeClick resetUpload
  cases m <;> simp

theorem files_analyzeClick (w : World) :
    (analyzeClick w).files = w.files ∧ (analyzeClick w).mode = w.mode := by
  unfold analyzeClick predictSingle predictBatch
  split
  · exact ⟨rfl, rfl⟩
  · split <;> split <;> exact ⟨rfl, rfl⟩

theorem files_settle (w : World) (i : Nat) (o : Outcome) :
    (settle w i o).files = w.files ∧ (settle w i o).mode = w.mode := by
  unfold settle
  split
  · exact ⟨rfl, rfl⟩
  · split <;> exact ⟨rfl, rfl⟩

theorem files_loadend (w : World) (g i : Nat) :
    (loadend w g i).files = w.files ∧ (loadend w g i).mode = w.mode := by
  unfold loadend
  split
  · exact ⟨rfl, rfl⟩
  · dsimp only
    split <;> exact ⟨rfl, rfl⟩

theorem capOk_step (w : World) (e : Event) (h : capOk w) : capOk (step w e) := by
  cases e with
  | drop fs => exact capOk_handleFiles w _ h
  | browse fs => exact capOk_handleFiles w _ h
  | setMode m => exact capOk_modeClick w m
  | clear => exact capOk_resetUpload w
  | analyze =>
    have := files_analyzeClick w
    simp only [step, capOk, this.1, this.2]; exact h
  | response i o =>
    have := files_settle w i o
    simp only [step, capOk, this.1, this.2]; exact h
  | decoded g i =>
    have := files_loadend w g i
    simp only [step, capOk, this.1, this.2]; exact h

theorem capOk_run (evs : List Event) (w : World) (h : capOk w) :
    capOk (run w evs) := by
  induction evs generalizing w with
  | nil => exact h
  | cons e evs ih => exact ih (step w e) (capOk_step w e h)

/-- Claim C4: in every state reached from the initial state by any sequence
of events (mode switches, selections through either intake path with any
list of files, clears, and also analyze clicks and completions), the
selection holds at most 1 file in single mode and at most 50 in batch
mode. -/
theorem selection_within_cap (evs : List Event) :
    (run init evs).files.length ≤
      (match (run init evs).mode with | .single => 1 | .batch => 50) :=
  capOk_run evs init capOk_init

/-! ## Clear -/

/-- Claim C10 (as amended): `resetUpload` is idempotent and leaves no files,
no previews, no single and no batch result, with `mode` unchanged; `loading`
and the outstanding requests are left as they were. -/
theorem resetUpload_idempotent (w : World) :
    resetUpload (resetUpload w) = resetUpload w ∧
    (resetUpload w).files = [] ∧ (resetUpload w).previews = [] ∧
    (resetUpload w).result = none ∧ (resetUpload w).batchResults = none ∧
    (resetUpload w).mode = w.mode ∧ (resetUpload w).loading = w.loading ∧
    (resetUpload w).requests = w.requests :=
  ⟨rfl, rfl, rfl, rfl, rfl, rfl, rfl, rfl⟩

/-- Claim C10 fails as stated: after selecting one image and clicking
analyze, a clear leaves `loading` true with the request still outstanding,
so the state after `clear()` is not Idle. -/
theorem resetUpload_keeps_loading :
    (resetUpload (run init [.drop [xray], .analyze])).loading = true ∧
    (resetUpload (run init [.drop [xray], .analyze])).requests =
      [⟨.predict, [xray]⟩] := by
  decide

/-! ## Selection: the two intake paths -/

theorem handleDrop_files (w : World) (dropped : List File) :
    (handleDrop w dropped).files =
      match w.mode, dropped.filter fun file => startsWith file.type "image/" with
      | .single, f :: _ => [f]
      | .single, [] => w.files
      | .batch, images => images.take 50 := by
  unfold handleDrop handleFiles
  cases w.mode <;> cases (dropped.filter fun file => startsWith file.type "image/") <;> rfl

theorem handleFileInput_files (w : World) (selected : List File) :
    (handleFileInput w selected).files =
      match w.mode, selected with
      | .single, f :: _ => [f]
      | .single, [] => w.files
      | .batch, chosen => chosen.take 50 := by
  unfold handleFileInput handleFiles
  cases w.mode <;> cases selected <;> rfl

/-- Claim C5: the browse path passes the chosen files to `handleFiles`
unfiltered, so a file that is no image becomes the selection. -/
theorem handleFileInput_keeps_non_image :
    startsWith report.type "image/" = false ∧
    (handleFileInput init [report]).files = [report] ∧
    (handleDrop init [report]).files = [] := by
  decide

/-! ## Submission -/

theorem analyzeClick_idle (w : World) (hf : w.files ≠ []) (hl : w.loading = false) :
    analyzeClick w =
      { w with loading := true, requests := w.requests ++ [issued w] } := by
  unfold analyzeClick predictSingle predictBatch issued
  cases hm : w.mode <;> cases hfs : w.files <;> simp_all

theorem settle_appended (v : World) (rs : List Request) (r : Request) (o : Outcome)
    (h : v.requests = rs ++ [r]) :
    settle v rs.length o =
      match r.url, o with
      | .predict, .okSingle data =>
        { v with requests := rs, result := some data, loading := false }
      | .predictBatch, .okBatch data =>
        { v with requests := rs, batchResults := some data, loading := false }
      | .predict, .okBatch _ => v
      | .predictBatch, .okSingle _ => v
      | .predict, _ =>
        { v with requests := rs, loading := false,
                 alerts := v.alerts ++
                   ["Prediction failed. Please ensure the backend is running."] }
      | .predictBatch, _ =>
        { v with requests := rs, loading := false,
                 alerts := v.alerts ++
                   ["Batch prediction failed. Please ensure the backend is running."] } := by
  unfold settle
  rw [h, List.getElem?_concat_length]
  simp only [List.eraseIdx_append_of_length_le (Nat.le_refl _), List.eraseIdx_cons_zero,
    List.append_nil, Nat.sub_self]

theorem predictSingle_unguarded (w : World) (f : File) (rest : List File)
    (hf : w.files = f :: rest) :
    (predictSingle w).requests = w.requests ++ [⟨.predict, [f]⟩] := by
  unfold predictSingle
  simp [hf]

/-- Claim C1 (as amended): a submission whose request rejects, returns a
non-success status or yields an unparsable body ends with `loading` false
and one more alert, and leaves `result` and `batchResults` exactly as they
were before the submission; the selection, the mode and the other
outstanding requests are unchanged. -/
theorem failed_submit_keeps_result (w : World) (o : Outcome)
    (hf : w.files ≠ []) (hl : w.loading = false) (ho : o.isFailure = true) :
    (submitThen w o).loading = false ∧
    (submitThen w o).result = w.result ∧
    (submitThen w o).batchResults = w.batchResults ∧
    (submitThen w o).requests = w.requests ∧
    (submitThen w o).files = w.files ∧
    (submitThen w o).mode = w.mode ∧
    (submitThen w o).alerts.length = w.alerts.length + 1 := by
  unfold submitThen
  rw [analyzeClick_idle w hf hl, settle_appended _ w.requests (issued w) o rfl]
  unfold issued
  cases hm : w.mode <;> cases o <;> simp_all [Outcome.isFailure]

/-- Witness of `failed_submit_keeps_result`: one selected image, no prior
result, the request rejects. -/
theorem failed_submit_keeps_result_witness :
    (submitThen (run init [.drop [xray]]) .rejected).loading = false ∧
    (submitThen (run init [.drop [xray]]) .rejected).result = none :=
  have h := failed_submit_keeps_result (run init [.drop [xray]]) .rejected
    (by decide) (by decide) (by decide)
  ⟨h.1, h.2.1.trans (by decide)⟩

/-- Claim C1 fails as stated: after a successful submission the analyze
button is enabled again over the same selection, and a second submission
that rejects ends with `loading` false and the first submission's result
still stored. -/
theorem failed_submit_retains_previous_result :
    (run init [.drop [xray], .analyze, .response 0 (.okSingle cannedSingle)]).files
      = [xray] ∧
    (run init [.drop [xray], .analyze, .response 0 (.okSingle cannedSingle)]).loading
      = false ∧
    (run init [.drop [xray], .analyze, .response 0 (.okSingle cannedSingle),
       .analyze, .response 0 .rejected]).loading = false ∧
    (run init [.drop [xray], .analyze, .response 0 (.okSingle cannedSingle),
       .analyze, .response 0 .rejected]).result = some cannedSingle := by
  decide

/-- Claim C9: from every batch state with a non-empty selection and no
request in flight, a submission whose request returns body `d` ends with
`loading` false and `batchResults` holding exactly `d` (so the stored
`results` is the response's list), the request sent carrying every selected
file; a clear after it leaves no single and no batch result and `loading`
false. -/
theorem batch_success_then_clear (w : World) (d : BatchResult)
    (hm : w.mode = .batch) (hf : w.files ≠ []) (hl : w.loading = false) :
    (analyzeClick w).requests = w.requests ++ [⟨.predictBatch, w.files⟩] ∧
    (analyzeClick w).loading = true ∧
    (submitThen w (.okBatch d)).loading = false ∧
    (submitThen w (.okBatch d)).batchResults = some d ∧
    (submitThen w (.okBatch d)).requests = w.requests ∧
    (submitThen w (.okBatch d)).files = w.files ∧
    (resetUpload (submitThen w (.okBatch d))).result = none ∧
    (resetUpload (submitThen w (.okBatch d))).batchResults = none ∧
    (resetUpload (submitThen w (.okBatch d))).loading = false := by
  unfold submitThen
  rw [analyzeClick_idle w hf hl, settle_appended _ w.requests (issued w) _ rfl]
  unfold issued
  simp [hm, resetUpload]

/-- Witness of `batch_success_then_clear`: three selected images and a
three-entry response; the stored `results` has length 3. -/
theorem batch_success_then_clear_witness :
    (run init [.setMode .batch, .drop [xray, scan, film]]).files.length = 3 ∧
    ((submitThen (run init [.setMode .batch, .drop [xray, scan, film]])
        (.okBatch cannedBatch)).batchResults.map fun b => b.results.length)
      = some 3 ∧
    (resetUpload (submitThen (run init [.setMode .batch, .drop [xray, scan, film]])
        (.okBatch cannedBatch))).batchResults = none :=
  have h := batch_success_then_clear
    (run init [.setMode .batch, .drop [xray, scan, film]]) cannedBatch
    (by decide) (by decide) (by decide)
  ⟨by decide, by rw [h.2.2.2.1]; rfl, h.2.2.2.2.2.2.2.1⟩

/-! ## At most one request in flight -/

theorem handleFiles_frame (w : World) (fs : List File) :
    (handleFiles w fs).requests = w.requests ∧
    (handleFiles w fs).loading = w.loading ∧
    (handleFiles w fs).result = none ∧
    (handleFiles w fs).batchResults = none := by
  unfold handleFiles
  cases w.mode <;> cases fs <;> exact ⟨rfl, rfl, rfl, rfl⟩

theorem loadend_frame (w : World) (g i : Nat) :
    (loadend w g i).requests = w.requests ∧
    (loadend w g i).loading = w.loading ∧
    (loadend w g i).result = w.result ∧
    (loadend w g i).batchResults = w.batchResults := by
  unfold loadend
  split
  · exact ⟨rfl, rfl, rfl, rfl⟩
  · dsimp only
    split <;> exact ⟨rfl, rfl, rfl, rfl⟩

theorem oneOutstanding_settle (w : World) (i : Nat) (o : Outcome)
    (h : oneOutstanding w) : oneOutstanding (settle w i o) := by
  unfold settle
  split
  · exact h
  · rename_i r hr
    have hlen : (w.requests.eraseIdx i) = [] := by
      have hi : i < w.requests.length := by
        by_contra hc
        rw [List.getElem?_eq_none (Nat.le_of_not_lt hc)] at hr
        cases hr
      have := List.length_eraseIdx_of_lt hi
      have h1 := h.1
      apply List.eq_nil_of_length_eq_zero
      omega
    dsimp only
    split <;> first | exact h | simp [oneOutstanding, hlen]

theorem oneOutstanding_step (w : World) (e : Event) (h : oneOutstanding w) :
    oneOutstanding (step w e) := by
  cases e with
  | drop fs =>
    have := handleFiles_frame w (fs.filter fun file => startsWith file.type "image/")
    simp only [step, handleDrop, oneOutstanding, this.1, this.2.1]; exact h
  | browse fs =>
    have := handleFiles_frame w fs
    simp only [step, handleFileInput, oneOutstanding, this.1, this.2.1]; exact h
  | setMode m => exact h
  | clear => exact h
  | analyze =>
    simp only [step]
    cases hl : w.loading with
    | true => simp only [analyzeClick, hl, if_true]; exact h
    | false =>
      by_cases hf : w.files = []
      · have : analyzeClick w = w := by
          unfold analyzeClick predictSingle predictBatch
          cases w.mode <;> simp [hl, hf]
        rw [this]; exact h
      · rw [analyzeClick_idle w hf hl]
        simp [oneOutstanding, h.2 hl]
  | response i o => exact oneOutstanding_settle w i o h
  | decoded g i =>
    have := loadend_frame w g i
    simp only [step, oneOutstanding, this.1, this.2.1]; exact h

theorem oneOutstanding_run (evs : List Event) (w : World) (h : oneOutstanding w) :
    oneOutstanding (run w evs) := by
  induction evs generalizing w with
  | nil => exact h
  | cons e evs ih => exact ih (step w e) (oneOutstanding_step w e h)

/-- Claim C2: in every state with `loading` true a click on the analyze
button changes nothing (no request is appended and no state cell, alert or
reader changes), and after every sequence of events from the initial state
at most one request is outstanding. -/
theorem analyze_while_loading_is_noop (w : World) (evs : List Event)
    (hl : w.loading = true) :
    analyzeClick w = w ∧ step w .analyze = w ∧
    (run init evs).requests.length ≤ 1 := by
  have h1 : analyzeClick w = w := by simp [analyzeClick, hl]
  exact ⟨h1, h1, (oneOutstanding_run evs init ⟨by decide, fun _ => rfl⟩).1⟩

/-- Witness of `analyze_while_loading_is_noop`: a second click while the
first request is outstanding. -/
theorem analyze_while_loading_is_noop_witness :
    (run init [.drop [xray], .analyze]).loading = true ∧
    analyzeClick (run init [.drop [xray], .analyze])
      = run init [.drop [xray], .analyze] ∧
    (run init [.drop [xray], .analyze, .analyze]).requests.length ≤ 1 :=
  have h := analyze_while_loading_is_noop (run init [.drop [xray], .analyze])
    [.drop [xray], .analyze, .analyze] (by decide)
  ⟨by decide, h.1, h.2.2⟩

/-! ## Results and the selection they belong to -/

theorem quiet_step (v : World) (e : Event) (hv : v.loading = true)
    (he : e.isQuiet = true) : sameCore (step v e) v := by
  cases e with
  | analyze =>
    have : analyzeClick v = v := by simp [analyzeClick, hv]
    simp only [step, this]
    exact ⟨rfl, rfl, rfl, rfl, rfl, rfl⟩
  | decoded g i =>
    have h1 := files_loadend v g i
    have h2 := loadend_frame v g i
    exact ⟨h1.2, h1.1, h2.2.1, h2.1, h2.2.2.1, h2.2.2.2⟩
  | drop fs => cases he
  | browse fs => cases he
  | setMode m => cases he
  | clear => cases he
  | response i o => cases he

theorem quiet_run (mid : List Event) (v : World) (hv : v.loading = true)
    (hmid : ∀ x ∈ mid, x.isQuiet = true) : sameCore (run v mid) v := by
  induction mid generalizing v with
  | nil => exact ⟨rfl, rfl, rfl, rfl, rfl, rfl⟩
  | cons e mid ih =>
    have hs := quiet_step v e hv (hmid e (List.mem_cons_self e mid))
    have hr := ih (step v e) (hs.2.2.1.trans hv)
      (fun x hx => hmid x (List.mem_cons_of_mem e hx))
    obtain ⟨a1, a2, a3, a4, a5, a6⟩ := hs
    obtain ⟨b1, b2, b3, b4, b5, b6⟩ := hr
    exact ⟨b1.trans a1, b2.trans a2, b3.trans a3, b4.trans a4, b5.trans a5,
      b6.trans a6⟩

theorem run_append (w : World) (xs ys : List Event) :
    run w (xs ++ ys) = run (run w xs) ys := by
  simp [run, List.foldl_append]

theorem issued_of_capOk (w : World) (hc : capOk w) :
    issued w =
      ⟨(match w.mode with | .single => .predict | .batch => .predictBatch), w.files⟩ := by
  unfold issued
  unfold capOk at hc
  cases hm : w.mode
  · simp only [hm] at hc
    simp only [Request.mk.injEq, true_and]
    exact List.take_of_length_le hc
  · rfl

/-- Claim C3 (as amended): every selection change (drop, browse, mode
button, clear) in any state `u` empties `result` and `batchResults` at that
moment and leaves `loading` and the outstanding requests as they were.  A
request issued from state `w` is issued over the held selection and mode,
and when only analyze clicks and reader completions happen before its
response arrives, the response installs its body while the selection and
the mode are still those the request was issued over.  In any state `v`
whatever, the parsed response of an outstanding request `q` installs its
body, whichever selection and mode `v` holds by then. -/
theorem result_belongs_to_selection (u w v : World) (e : Event) (mid : List Event)
    (rs : SingleResult) (rb : BatchResult) (i : Nat) (q : Request)
    (he : e.isSelectionChange = true)
    (hf : w.files ≠ []) (hl : w.loading = false) (hc : capOk w)
    (hmid : ∀ x ∈ mid, x.isQuiet = true)
    (hq : v.requests[i]? = some q) :
    ((step u e).result = none ∧ (step u e).batchResults = none ∧
      (step u e).loading = u.loading ∧ (step u e).requests = u.requests) ∧
    (match q.url with
      | .predict => (step v (.response i (.okSingle rs))).result = some rs
      | .predictBatch =>
        (step v (.response i (.okBatch rb))).batchResults = some rb) ∧
    (run w [.analyze]).requests = w.requests ++
      [⟨(match w.mode with | .single => .predict | .batch => .predictBatch),
        w.files⟩] ∧
    (run w ([.analyze] ++ mid ++
        [.response w.requests.length (bodyFor w.mode rs rb)])).files = w.files ∧
    (run w ([.analyze] ++ mid ++
        [.response w.requests.length (bodyFor w.mode rs rb)])).mode = w.mode ∧
    (run w ([.analyze] ++ mid ++
        [.response w.requests.length (bodyFor w.mode rs rb)])).loading = false ∧
    (match w.mode with
      | .single =>
        (run w ([.analyze] ++ mid ++
          [.response w.requests.length (bodyFor w.mode rs rb)])).result = some rs
      | .batch =>
        (run w ([.analyze] ++ mid ++
          [.response w.requests.length (bodyFor w.mode rs rb)])).batchResults
          = some rb) := by
  refine ⟨?_, ?_, ?_, ?_⟩
  · cases e with
    | drop fs =>
      have := handleFiles_frame u (fs.filter fun file => startsWith file.type "image/")
      exact ⟨this.2.2.1, this.2.2.2, this.2.1, this.1⟩
    | browse fs =>
      have := handleFiles_frame u fs
      exact ⟨this.2.2.1, this.2.2.2, this.2.1, this.1⟩
    | setMode m => exact ⟨rfl, rfl, rfl, rfl⟩
    | clear => exact ⟨rfl, rfl, rfl, rfl⟩
    | analyze => cases he
    | response i o => cases he
    | decoded g i => cases he
  · rcases q with ⟨url, body⟩
    cases url
    · show (settle v i _).result = _
      unfold settle
      rw [hq]
    · show (settle v i _).batchResults = _
      unfold settle
      rw [hq]
  · show (analyzeClick w).requests = _
    rw [analyzeClick_idle w hf hl, issued_of_capOk w hc]
  · rw [run_append, run_append]
    have hq := quiet_run mid (run w [.analyze])
      (by show (analyzeClick w).loading = true
          rw [analyzeClick_idle w hf hl]) hmid
    have ha : (run w [.analyze]) =
        { w with loading := true, requests := w.requests ++ [issued w] } :=
      analyzeClick_idle w hf hl
    generalize run (run w [.analyze]) mid = v at hq ⊢
    rw [ha] at hq
    obtain ⟨q1, q2, q3, q4, q5, q6⟩ := hq
    simp only at q1 q2 q3 q4 q5 q6
    have hs := settle_appended v w.requests (issued w) (bodyFor w.mode rs rb) q4
    change run v [.response w.requests.length (bodyFor w.mode rs rb)] = _ at hs
    rw [hs]
    clear hs
    unfold issued bodyFor
    cases hm : w.mode <;> simp [q1, q2, hm]

/-- Witness of `result_belongs_to_selection`: a clear while a request is in
flight leaves `loading` true; and a request issued over `[xray]` whose
response arrives after a second click and a reader completion installs its
body with `[xray]` still selected. -/
theorem result_belongs_to_selection_witness :
    (step (run init [.drop [xray], .analyze]) .clear).loading = true ∧
    (step (run init [.drop [xray], .analyze, .clear])
      (.response 0 (.okSingle cannedSingle))).result = some cannedSingle ∧
    (run (run init [.drop [xray]]) ([.analyze] ++ [.analyze, .decoded 0 0] ++
        [.response 0 (.okSingle cannedSingle)])).files = [xray] ∧
    (run (run init [.drop [xray]]) ([.analyze] ++ [.analyze, .decoded 0 0] ++
        [.response 0 (.okSingle cannedSingle)])).result = some cannedSingle :=
  have h := result_belongs_to_selection (run init [.drop [xray], .analyze])
    (run init [.drop [xray]]) (run init [.drop [xray], .analyze, .clear]) .clear
    [.analyze, .decoded 0 0] cannedSingle cannedBatch 0 ⟨.predict, [xray]⟩
    (by decide) (by decide) (by decide) (by decide) (by decide) (by decide)
  ⟨h.1.2.2.1.trans (by decide), h.2.1, h.2.2.2.1.trans (by decide), h.2.2.2.2.2.2⟩

/-- Claim C3 fails as stated: a clear, or a mode switch followed by a new
batch selection, while a request is in flight leaves `loading` true, and the
response of the request issued before it still installs its body, over an
empty selection or over the new batch selection. -/
theorem stale_response_installs_result :
    (run init [.drop [xray], .analyze, .clear]).loading = true ∧
    (run init [.drop [xray], .analyze, .clear,
       .response 0 (.okSingle cannedSingle)]).files = [] ∧
    (run init [.drop [xray], .analyze, .clear,
       .response 0 (.okSingle cannedSingle)]).result = some cannedSingle ∧
    (run init [.drop [xray], .analyze, .setMode .batch, .drop [scan, film],
       .response 0 (.okSingle cannedSingle)]).mode = .batch ∧
    (run init [.drop [xray], .analyze, .setMode .batch, .drop [scan, film],
       .response 0 (.okSingle cannedSingle)]).files = [scan, film] ∧
    (run init [.drop [xray], .analyze, .setMode .batch, .drop [scan, film],
       .response 0 (.okSingle cannedSingle)]).result = some cannedSingle := by
  decide

/-! ## Preview pipeline -/

theorem previewsIn_length (fs : List File) (order : List Nat)
    (h : ∀ i ∈ order, i < fs.length) : (previewsIn fs order).length = order.length := by
  induction order with
  | nil => rfl
  | cons i rest ih =>
    have hi : i < fs.length := h i (List.mem_cons_self i rest)
    have hr := ih (fun k hk => h k (List.mem_cons_of_mem i hk))
    unfold previewsIn at *
    simp [List.filterMap_cons, List.getElem?_eq_getElem hi, hr]

theorem previewsIn_append (fs : List File) (xs ys : List Nat) :
    previewsIn fs (xs ++ ys) = previewsIn fs xs ++ previewsIn fs ys := by
  simp [previewsIn, List.filterMap_append]

theorem previewsIn_range (fs : List File) :
    previewsIn fs (List.range fs.length) = fs.map readAsDataURL := by
  induction fs with
  | nil => rfl
  | cons a fs ih =>
    unfold previewsIn at *
    rw [List.length_cons, List.range_succ_eq_map, List.filterMap_cons]
    simp only [List.getElem?_cons_zero, Option.map_some', List.filterMap_map, List.map_cons]
    congr 1
    exact (List.filterMap_congr (fun k _ => by simp)).trans ih

theorem after_start (fs : List File) : (ReadJob.start true fs).after fs [] := by
  refine ⟨rfl, rfl, rfl, List.nodup_range _, ?_⟩
  intro i
  simp [ReadJob.start]

theorem length_le_of_nodup_lt (l : List Nat) (n : Nat) (hn : l.Nodup)
    (hl : ∀ i ∈ l, i < n) : l.length ≤ n := by
  have hsub : l ⊆ List.range n := fun i hi => List.mem_range.mpr (hl i hi)
  have := (List.subperm_of_subset hn hsub).length_le
  simpa using this

theorem loadend_after (j : ReadJob) (fs : List File) (done : List Nat) (i : Nat)
    (hj : j.after fs done) (hdone : ∀ k ∈ done, k < fs.length)
    (hi : i < fs.length) (hd : i ∉ done) :
    (j.loadend i).1.after fs (done ++ [i]) ∧
    (j.loadend i).2 =
      if (done ++ [i]).length = fs.length then some (previewsIn fs (done ++ [i]))
      else none := by
  obtain ⟨hb, hf, hp, hnd, hw⟩ := hj
  rcases j with ⟨b, files, waiting, acc⟩
  simp only at hb hf hp hnd hw
  subst hb hf hp
  have hmem : i ∈ waiting := (hw i).mpr ⟨hi, hd⟩
  have hacc : previewsIn files done ++ [readAsDataURL files[i]]
      = previewsIn files (done ++ [i]) := by
    rw [previewsIn_append]
    simp [previewsIn, List.getElem?_eq_getElem hi]
  have hlen : (previewsIn files (done ++ [i])).length = (done ++ [i]).length := by
    apply previewsIn_length
    intro k hk
    rcases List.mem_append.mp hk with hk | hk
    · exact hdone k hk
    · rw [List.mem_singleton.mp hk]; exact hi
  have hw2 : ∀ k, k ∈ waiting.erase i ↔ k < files.length ∧ k ∉ done ++ [i] := by
    intro k
    rw [List.Nodup.mem_erase_iff hnd, hw]
    simp only [List.mem_append, List.mem_singleton, not_or]
    tauto
  unfold ReadJob.loadend
  simp only [hmem, if_true, List.getElem?_eq_getElem hi, hacc, hlen]
  by_cases hc : (done ++ [i]).length = files.length
  · simp only [hc, if_true]
    exact ⟨⟨rfl, rfl, rfl, hnd.erase i, hw2⟩, trivial⟩
  · simp only [hc, if_false]
    exact ⟨⟨rfl, rfl, rfl, hnd.erase i, hw2⟩, trivial⟩

theorem run_after (fs : List File) (order : List Nat) (j : ReadJob) (done : List Nat)
    (hj : j.after fs done) (hn : (done ++ order).Nodup)
    (hr : ∀ k ∈ done ++ order, k < fs.length) :
    (j.run order).2 =
      if order ≠ [] ∧ (done ++ order).length = fs.length
      then [previewsIn fs (done ++ order)] else [] := by
  induction order generalizing j done with
  | nil => simp [ReadJob.run]
  | cons i rest ih =>
    have hi : i < fs.length := hr i (by simp)
    have hd : i ∉ done := by
      intro hmem
      have := (List.nodup_append.mp hn).2.2
      exact this hmem (List.mem_cons_self i rest)
    have hdone : ∀ k ∈ done, k < fs.length := fun k hk => hr k (List.mem_append_left _ hk)
    obtain ⟨ha, hp⟩ := loadend_after j fs done i hj hdone hi hd
    have hn2 : (done ++ [i] ++ rest).Nodup := by simpa using hn
    have hr2 : ∀ k ∈ done ++ [i] ++ rest, k < fs.length := by simpa using hr
    have hrec := ih (j.loadend i).1 (done ++ [i]) ha hn2 hr2
    have htot := length_le_of_nodup_lt _ _ hn hr
    simp only [ReadJob.run, hp]
    by_cases hc : (done ++ [i]).length = fs.length
    · have hrest : rest = [] := by
        apply List.eq_nil_of_length_eq_zero
        simp only [List.length_append, List.length_cons, List.length_nil] at hc htot
        omega
      subst hrest
      simp [hc, ReadJob.run]
    · simp only [hc, if_false, hrec]
      by_cases hrest : rest = []
      · subst hrest
        simpa using hc
      · simp [hrest]

theorem previewsIn_getElem_of_order (fs : List File) (order : List Nat)
    (h : ∀ k ∈ order, k < fs.length) (i k : Nat) (hk : order[i]? = some k) :
    (previewsIn fs order)[i]? = fs[k]?.map readAsDataURL := by
  induction order generalizing i with
  | nil => simp at hk
  | cons a rest ih =>
    have ha : a < fs.length := h a (List.mem_cons_self a rest)
    have hrest : ∀ k ∈ rest, k < fs.length := fun k hk => h k (List.mem_cons_of_mem a hk)
    have hcons : previewsIn fs (a :: rest) = readAsDataURL fs[a] :: previewsIn fs rest := by
      simp [previewsIn, List.filterMap_cons, List.getElem?_eq_getElem ha]
    rw [hcons]
    cases i with
    | zero =>
      simp only [List.getElem?_cons_zero, Option.some.injEq] at hk
      subst hk
      simp [List.getElem?_eq_getElem ha]
    | succ i =>
      simp only [List.getElem?_cons_succ] at hk ⊢
      exact ih hrest i hk

theorem loadend_of_group (w : World) (g i : Nat) (j : ReadJob)
    (hj : w.readers[g]? = some j) :
    (loadend w g i).readers[g]? = some (j.loadend i).1 ∧
    (loadend w g i).readers.length = w.readers.length ∧
    (loadend w g i).previews = (j.loadend i).2.getD w.previews := by
  have hg : g < w.readers.length := by
    by_contra hc
    rw [List.getElem?_eq_none (Nat.le_of_not_lt hc)] at hj
    cases hj
  unfold loadend
  rw [hj]
  dsimp only
  cases h2 : (j.loadend i).2 with
  | none => simp [hg]
  | some ps => simp [hg]

theorem run_decoded (order : List Nat) (w : World) (g : Nat) (j : ReadJob)
    (hj : w.readers[g]? = some j) :
    (run w (order.map (Event.decoded g))).previews =
      ((j.run order).2.getLast?).getD w.previews := by
  induction order generalizing w j with
  | nil => rfl
  | cons i rest ih =>
    obtain ⟨h1, _, h3⟩ := loadend_of_group w g i j hj
    have hrec := ih (loadend w g i) (j.loadend i).1 h1
    have hrun : run w ((i :: rest).map (Event.decoded g)) =
        run (loadend w g i) (rest.map (Event.decoded g)) := rfl
    rw [hrun, hrec, h3]
    simp only [ReadJob.run]
    cases h2 : (j.loadend i).2 with
    | none => rfl
    | some ps =>
      cases ht : ((j.loadend i).1.run rest).2 with
      | nil => rfl
      | cons a t =>
        simp only [List.getLast?_cons_cons]
        rw [List.getLast?_eq_getLast _ (List.cons_ne_nil a t)]
        rfl

theorem order_facts (n : Nat) (order : List Nat) (hperm : order.Perm (List.range n)) :
    order.Nodup ∧ (∀ k ∈ order, k < n) ∧ order.length = n :=
  ⟨hperm.nodup_iff.mpr (List.nodup_range n),
   fun k hk => List.mem_range.mp (hperm.mem_iff.mp hk),
   by simpa using hperm.length_eq⟩

/-- Claim C7: a batch selection of at least one file starts one reader group
over the retained files; in every order in which the readers complete,
`setPreviews` is not called while fewer than all of them have completed (the
`previews` cell still holds what it held before the selection), and over the
whole run it is called exactly once, with a collection of exactly as many
entries as files are selected, which the `previews` cell then holds. -/
theorem previews_published_once (w : World) (newFiles : List File) (order : List Nat)
    (hm : w.mode = .batch) (hne : newFiles ≠ [])
    (hperm : order.Perm (List.range (newFiles.take 50).length)) :
    (handleFiles w newFiles).files = newFiles.take 50 ∧
    (handleFiles w newFiles).readers =
      w.readers ++ [ReadJob.start true (newFiles.take 50)] ∧
    (handleFiles w newFiles).previews = w.previews ∧
    (∀ k, k < (newFiles.take 50).length →
      ((ReadJob.start true (newFiles.take 50)).run (order.take k)).2 = []) ∧
    ((ReadJob.start true (newFiles.take 50)).run order).2 =
      [previewsIn (newFiles.take 50) order] ∧
    (previewsIn (newFiles.take 50) order).length = (newFiles.take 50).length ∧
    (∀ k, k < (newFiles.take 50).length →
      (run (handleFiles w newFiles)
        ((order.take k).map (Event.decoded w.readers.length))).previews
        = w.previews) ∧
    (run (handleFiles w newFiles)
      (order.map (Event.decoded w.readers.length))).previews
      = previewsIn (newFiles.take 50) order := by
  obtain ⟨hnd, hlt, hlen⟩ := order_facts _ order hperm
  have hpos : 0 < (newFiles.take 50).length := by
    cases newFiles with
    | nil => exact absurd rfl hne
    | cons a t => simp
  have hreaders : (handleFiles w newFiles).readers =
      w.readers ++ [ReadJob.start true (newFiles.take 50)] := by
    unfold handleFiles; simp [hm]
  have hprev : (handleFiles w newFiles).previews = w.previews := by
    unfold handleFiles; simp [hm]
  have hgroup : (handleFiles w newFiles).readers[w.readers.length]? =
      some (ReadJob.start true (newFiles.take 50)) := by
    rw [hreaders, List.getElem?_concat_length]
  have hpart : ∀ k, k < (newFiles.take 50).length →
      ((ReadJob.start true (newFiles.take 50)).run (order.take k)).2 = [] := by
    intro k hk
    have h := run_after (newFiles.take 50) (order.take k) _ [] (after_start _)
      (by simpa using hnd.sublist (List.take_sublist k order))
      (by intro x hx
          exact hlt x (List.mem_of_mem_take (by simpa using hx)))
    rw [h, if_neg]
    intro hc
    have h2 : (order.take k).length = k := by
      rw [List.length_take, hlen]
      exact Nat.min_eq_left (Nat.le_of_lt hk)
    have h3 := hc.2
    rw [List.nil_append, h2] at h3
    omega
  have hfull : ((ReadJob.start true (newFiles.take 50)).run order).2 =
      [previewsIn (newFiles.take 50) order] := by
    have h := run_after (newFiles.take 50) order _ [] (after_start _)
      (by simpa using hnd) (by simpa using hlt)
    rw [h, if_pos]
    · rfl
    · refine ⟨?_, by simpa using hlen⟩
      intro hc
      rw [hc] at hlen
      exact absurd hlen.symm (Nat.ne_of_gt hpos)
  refine ⟨?_, hreaders, hprev, hpart, hfull, ?_, ?_, ?_⟩
  · unfold handleFiles; simp [hm]
  · rw [previewsIn_length _ _ hlt, hlen]
  · intro k hk
    rw [run_decoded _ _ _ _ hgroup, hpart k hk, hprev]
    rfl
  · rw [run_decoded _ _ _ _ hgroup, hfull]
    rfl

/-- Witness of `previews_published_once`: three files whose readers
complete in the order 2, 0, 1. -/
theorem previews_published_once_witness :
    ((ReadJob.start true ([xray, scan, film].take 50)).run ([2, 0, 1].take 2)).2 = [] ∧
    ((ReadJob.start true ([xray, scan, film].take 50)).run [2, 0, 1]).2 =
      [previewsIn ([xray, scan, film].take 50) [2, 0, 1]] ∧
    (previewsIn ([xray, scan, film].take 50) [2, 0, 1]).length = 3 :=
  have h := previews_published_once (run init [.setMode .batch]) [xray, scan, film]
    [2, 0, 1] (by decide) (by decide) (by decide)
  ⟨h.2.2.2.1 2 (by decide), h.2.2.2.2.1, h.2.2.2.2.2.1⟩

/-- Claim C6 (as amended): for a batch selection of at least one file and
every order in which the readers complete, the collection passed to
`setPreviews`, which the `previews` cell holds afterwards, lists the
decoded previews in completion order: its entry `i` is the preview of the
file whose reader completed `i`-th.  It has as many entries as files are
selected, is a permutation of their previews, and is in selection order
when the readers complete in selection order. -/
theorem previews_in_completion_order (w : World) (newFiles : List File)
    (order : List Nat) (hm : w.mode = .batch) (hne : newFiles ≠ [])
    (hperm : order.Perm (List.range (newFiles.take 50).length)) :
    (handleFiles w newFiles).readers =
      w.readers ++ [ReadJob.start true (handleFiles w newFiles).files] ∧
    ((ReadJob.start true (handleFiles w newFiles).files).run order).2 =
      [previewsIn (handleFiles w newFiles).files order] ∧
    (∀ i k : Nat, order[i]? = some k →
      (previewsIn (handleFiles w newFiles).files order)[i]? =
        ((handleFiles w newFiles).files[k]?).map readAsDataURL) ∧
    (previewsIn (handleFiles w newFiles).files order).length =
      (handleFiles w newFiles).files.length ∧
    (previewsIn (handleFiles w newFiles).files order).Perm
      ((handleFiles w newFiles).files.map readAsDataURL) ∧
    (order = List.range (handleFiles w newFiles).files.length →
      previewsIn (handleFiles w newFiles).files order =
        (handleFiles w newFiles).files.map readAsDataURL) ∧
    (run (handleFiles w newFiles)
      (order.map (Event.decoded w.readers.length))).previews
      = previewsIn (handleFiles w newFiles).files order := by
  have hfiles : (handleFiles w newFiles).files = newFiles.take 50 := by
    unfold handleFiles; simp [hm]
  have hreaders : (handleFiles w newFiles).readers =
      w.readers ++ [ReadJob.start true (newFiles.take 50)] := by
    unfold handleFiles; simp [hm]
  have hgroup : (handleFiles w newFiles).readers[w.readers.length]? =
      some (ReadJob.start true (newFiles.take 50)) := by
    rw [hreaders, List.getElem?_concat_length]
  rw [hfiles]
  obtain ⟨hnd, hlt, hlen⟩ := order_facts _ order hperm
  have hfull : ((ReadJob.start true (newFiles.take 50)).run order).2 =
      [previewsIn (newFiles.take 50) order] := by
    have h := run_after (newFiles.take 50) order _ [] (after_start _)
      (by simpa using hnd) (by simpa using hlt)
    rw [h, if_pos]
    · rfl
    · refine ⟨?_, by simpa using hlen⟩
      intro hc
      rw [hc] at hlen
      cases newFiles with
      | nil => exact absurd rfl hne
      | cons a t => simp at hlen
  refine ⟨hreaders, hfull, ?_, ?_, ?_, ?_, ?_⟩
  · intro i k hk
    exact previewsIn_getElem_of_order _ order hlt i k hk
  · rw [previewsIn_length _ _ hlt, hlen]
  · rw [← previewsIn_range]
    exact List.Perm.filterMap _ hperm
  · intro ho
    rw [ho, previewsIn_range]
  · rw [run_decoded _ _ _ _ hgroup, hfull]
    rfl

/-- Witness of `previews_in_completion_order`: two files, the second
decoded first. -/
theorem previews_in_completion_order_witness :
    ((ReadJob.start true
        (handleFiles (run init [.setMode .batch]) [xray, scan]).files).run [1, 0]).2 =
      [previewsIn (handleFiles (run init [.setMode .batch]) [xray, scan]).files [1, 0]] ∧
    previewsIn (handleFiles (run init [.setMode .batch]) [xray, scan]).files [1, 0] =
      [readAsDataURL scan, readAsDataURL xray] :=
  have h := previews_in_completion_order (run init [.setMode .batch]) [xray, scan]
    [1, 0] (by decide) (by decide) (by decide)
  ⟨h.2.1, by decide⟩

/-- Claim C6 fails as stated: with `[xray, scan]` selected in batch mode and
the reader of `scan` completing first, the published `previews` holds the
preview of `scan` at index 0, where the selection holds `xray`. -/
theorem previews_follow_completion_order :
    (run init [.setMode .batch, .drop [xray, scan], .decoded 0 1, .decoded 0 0]).files
      = [xray, scan] ∧
    (run init [.setMode .batch, .drop [xray, scan], .decoded 0 1, .decoded 0 0]).previews
      = [readAsDataURL scan, readAsDataURL xray] ∧
    (run init [.setMode .batch, .drop [xray, scan], .decoded 0 1,
       .decoded 0 0]).previews[0]? ≠ some (readAsDataURL xray) := by
  decide

/-! ## Result view: the confidence text -/

theorem bitLengthAux_le_iff (fuel p t : Nat) (h : p ≤ fuel) :
    bitLengthAux fuel p ≤ t ↔ p < 2 ^ t := by
  induction fuel generalizing p t with
  | zero =>
    have : p = 0 := Nat.le_zero.mp h
    subst this
    simp [bitLengthAux]
  | succ fuel ih =>
    unfold bitLengthAux
    by_cases hp : p = 0
    · subst hp
      simp
    · simp only [hp, if_false]
      cases t with
      | zero =>
        simp only [Nat.pow_zero, Nat.lt_one_iff]
        constructor
        · intro h0; omega
        · intro h0; exact absurd h0 hp
      | succ t =>
        have hle : p / 2 ≤ fuel := by omega
        rw [Nat.add_le_add_iff_right, ih (p / 2) t hle, Nat.pow_succ,
          Nat.div_lt_iff_lt_mul (by decide)]

theorem bitLength_le_iff (p t : Nat) : bitLength p ≤ t ↔ p < 2 ^ t :=
  bitLengthAux_le_iff p p t (Nat.le_refl p)

theorem roundShift_le (p s : Nat) : roundShift p s ≤ p / 2 ^ s + 1 := by
  unfold roundShift
  dsimp only
  split <;> omega

theorem toDigitsCore_acc (f n : Nat) (acc : List Char) :
    Nat.toDigitsCore 10 f n acc = Nat.toDigitsCore 10 f n [] ++ acc := by
  induction f generalizing n acc with
  | zero => simp [Nat.toDigitsCore]
  | succ f ih =>
    simp only [Nat.toDigitsCore]
    split
    · simp
    · rw [ih (n / 10) (_ :: acc), ih (n / 10) [_]]
      simp

theorem toDigitsCore_fuel (f g n : Nat) (hf : n < f) (hg : n < g) :
    Nat.toDigitsCore 10 f n [] = Nat.toDigitsCore 10 g n [] := by
  induction f generalizing g n with
  | zero => omega
  | succ f ih =>
    cases g with
    | zero => omega
    | succ g =>
      simp only [Nat.toDigitsCore]
      split
      · rfl
      · rename_i hne
        have h1 : n / 10 < f := by omega
        have h2 : n / 10 < g := by omega
        rw [toDigitsCore_acc f, toDigitsCore_acc g, ih g (n / 10) h1 h2]

theorem toDigits_lt_ten (n : Nat) (h : n < 10) :
    Nat.toDigits 10 n = [Nat.digitChar n] := by
  unfold Nat.toDigits
  simp only [Nat.toDigitsCore]
  have h0 : n / 10 = 0 := by omega
  have h1 : n % 10 = n := by omega
  simp [h0, h1]

theorem toDigits_ten_le (n : Nat) (h : 10 ≤ n) :
    Nat.toDigits 10 n = Nat.toDigits 10 (n / 10) ++ [Nat.digitChar (n % 10)] := by
  unfold Nat.toDigits
  rw [Nat.toDigitsCore]
  have h0 : n / 10 ≠ 0 := by omega
  simp only [h0, if_false]
  rw [toDigitsCore_acc n, toDigitsCore_fuel n (n / 10 + 1) (n / 10) (by omega) (by omega)]

theorem toDigits_length_pos (n : Nat) : 0 < (Nat.toDigits 10 n).length := by
  by_cases h : n < 10
  · rw [toDigits_lt_ten n h]; simp
  · rw [toDigits_ten_le n (by omega)]; simp

theorem fixed2_digits (n : Nat) (m : List Char) (hm : m = Nat.toDigits 10 n) :
    (if m.length ≤ 2 then List.replicate (2 + 1 - m.length) '0' ++ m else m).take
        ((if m.length ≤ 2 then List.replicate (2 + 1 - m.length) '0' ++ m else m).length - 2)
      ++ '.' ::
      (if m.length ≤ 2 then List.replicate (2 + 1 - m.length) '0' ++ m else m).drop
        ((if m.length ≤ 2 then List.replicate (2 + 1 - m.length) '0' ++ m else m).length - 2)
    = Nat.toDigits 10 (n / 100) ++
        ['.', Nat.digitChar (n / 10 % 10), Nat.digitChar (n % 10)] := by
  subst hm
  by_cases h10 : n < 10
  · have e1 : n / 100 = 0 := by omega
    have e2 : n / 10 % 10 = 0 := by omega
    have e3 : n % 10 = n := by omega
    rw [toDigits_lt_ten n h10, e1, e2, e3]
    rfl
  · by_cases h100 : n < 100
    · have e1 : n / 100 = 0 := by omega
      have e2 : n / 10 % 10 = n / 10 := by omega
      rw [toDigits_ten_le n (by omega), toDigits_lt_ten (n / 10) (by omega), e1, e2]
      rfl
    · have e1 : n / 10 / 10 = n / 100 := by omega
      rw [toDigits_ten_le n (by omega), toDigits_ten_le (n / 10) (by omega), e1]
      have hpos := toDigits_length_pos (n / 100)
      generalize Nat.toDigits 10 (n / 100) = ds at hpos ⊢
      have hlen : ¬ ((ds ++ [Nat.digitChar (n / 10 % 10)] ++ [Nat.digitChar (n % 10)]).length ≤ 2) := by
        simp only [List.length_append, List.length_singleton]
        omega
      simp only [hlen, if_false]
      simp

theorem scaledNearest_spec (x : F64) (f : Nat) :
    ((x.scaledNearest f : Nat) : ℚ) ≤ 10 ^ f * x.toRat + 1 / 2 ∧
    10 ^ f * x.toRat + 1 / 2 < ((x.scaledNearest f : Nat) : ℚ) + 1 := by
  rcases x with ⟨m, e⟩
  cases e with
  | ofNat e =>
    simp only [F64.scaledNearest, F64.toRat, Int.ofNat_eq_coe, zpow_natCast]
    push_cast
    constructor
    · nlinarith
    · nlinarith
  | negSucc k =>
    simp only [F64.scaledNearest, F64.toRat]
    have hD : (0 : ℚ) < 2 ^ (k + 2) := by positivity
    have hdiv := Nat.div_add_mod (2 * m * 10 ^ f + 2 ^ (k + 1)) (2 ^ (k + 2))
    have hmod := Nat.mod_lt (2 * m * 10 ^ f + 2 ^ (k + 1)) (Nat.two_pow_pos (k + 2))
    set n := (2 * m * 10 ^ f + 2 ^ (k + 1)) / 2 ^ (k + 2) with hn
    set r := (2 * m * 10 ^ f + 2 ^ (k + 1)) % 2 ^ (k + 2) with hr
    have hq : ((2 : ℚ) ^ (k + 2)) * n + r = 2 * m * 10 ^ f + 2 ^ (k + 1) := by
      exact_mod_cast hdiv
    have hrq : (r : ℚ) < 2 ^ (k + 2) := by exact_mod_cast hmod
    have hr0 : (0 : ℚ) ≤ r := Nat.cast_nonneg r
    have hz : (2 : ℚ) ^ (Int.negSucc k) = 1 / 2 ^ (k + 1) := by
      rw [zpow_negSucc]; simp
    rw [hz]
    have h2 : (2 : ℚ) ^ (k + 2) = 2 * 2 ^ (k + 1) := by ring
    have hk : (0 : ℚ) < 2 ^ (k + 1) := by positivity
    have key : (10 : ℚ) ^ f * (m * (1 / 2 ^ (k + 1))) + 1 / 2
        = (2 * m * 10 ^ f + 2 ^ (k + 1)) / 2 ^ (k + 2) := by
      rw [h2]; field_simp; ring
    rw [key, ← hq]
    constructor
    · rw [le_div_iff₀ hD]; nlinarith
    · rw [div_lt_iff₀ hD]; nlinarith

theorem below1e21_neg (m k : Nat) :
    F64.below1e21 ⟨m, -(k : Int)⟩ = decide (m < 10 ^ 21 * 2 ^ k) := by
  cases k with
  | zero => simp [F64.below1e21]
  | succ k =>
    have : -((k + 1 : Nat) : Int) = Int.negSucc k := rfl
    rw [this]
    rfl

theorem shift_le (m k : Nat) (hm : m < 2 ^ 53) (h1 : m ≤ 2 ^ k) :
    bitLength (m * 100) - 53 ≤ k := by
  by_cases hs : bitLength (m * 100) ≤ 53
  · omega
  · have hp : ¬ (m * 100 < 2 ^ 53) := fun h => hs ((bitLength_le_iff _ _).mpr h)
    have h60 : bitLength (m * 100) ≤ 60 := by
      rw [bitLength_le_iff]
      norm_num at hm ⊢
      omega
    have hk46 : 46 < k := by
      by_contra hc
      have : 2 ^ k ≤ 2 ^ 46 := Nat.pow_le_pow_right (by decide) (by omega)
      norm_num at hp hm this
      omega
    omega

theorem mul_hundred_shift (m k : Nat) (hm : m < 2 ^ 53) (hk : k ≤ 1074)
    (h1 : m ≤ 2 ^ k) :
    ∃ s, s ≤ k ∧
      F64.mul ⟨m, -(k : Int)⟩ hundred = ⟨roundShift (m * 100) s, -((k - s : Nat) : Int)⟩ := by
  have hsk := shift_le m k hm h1
  refine ⟨bitLength (m * 100) - 53, hsk, ?_⟩
  unfold F64.mul hundred
  have htn : (-1074 - (-(k : Int) + 0)).toNat = 0 := by
    apply Int.toNat_eq_zero.mpr
    omega
  simp only [htn, Nat.max_zero, F64.mk.injEq, true_and]
  omega

theorem below_of_isUnit (x : F64) (hx : x.isUnit) : (x.mul hundred).below1e21 = true := by
  obtain ⟨hm, he, h0, h1⟩ := hx
  rcases x with ⟨m, e⟩
  obtain ⟨k, rfl⟩ := Int.exists_eq_neg_ofNat h0
  simp only [Int.natAbs_neg, Int.natAbs_ofNat] at h1
  simp only at hm he
  obtain ⟨s, hs, heq⟩ := mul_hundred_shift m k hm (by omega) h1
  rw [heq, below1e21_neg, decide_eq_true_eq]
  have hr := roundShift_le (m * 100) s
  have hsplit : 2 ^ k = 2 ^ (k - s) * 2 ^ s := by
    rw [← Nat.pow_add]; congr 1; omega
  have hdiv : m * 100 / 2 ^ s ≤ 100 * 2 ^ (k - s) := by
    apply Nat.div_le_of_le_mul
    calc m * 100 ≤ 2 ^ k * 100 := Nat.mul_le_mul_right _ h1
      _ = 2 ^ s * (100 * 2 ^ (k - s)) := by rw [hsplit]; ring
  have hpos : 0 < 2 ^ (k - s) := Nat.two_pow_pos _
  have : 100 * 2 ^ (k - s) + 1 < 10 ^ 21 * 2 ^ (k - s) := by
    norm_num
    nlinarith
  omega

theorem percent_format (x : F64) (hx : x.isUnit) :
    percent x = some (String.mk
      (Nat.toDigits 10 ((x.mul hundred).scaledNearest 2 / 100) ++
        ['.', Nat.digitChar ((x.mul hundred).scaledNearest 2 / 10 % 10),
          Nat.digitChar ((x.mul hundred).scaledNearest 2 % 10)])) := by
  unfold percent F64.toFixed
  rw [below_of_isUnit x hx]
  simp only [if_true, OfNat.ofNat_ne_zero, if_false]
  rw [fixed2_digits _ _ rfl]

/-- Claim C8: for every `/predict` body whose confidence is a binary64
number between 0 and 1, the result card takes the Pneumonia branch exactly
when `prediction` is the string "PNEUMONIA" and the Normal branch for every
other label, and shows as confidence the integer part, a point and exactly
two decimal digits of `n / 100`, where `n` is the integer nearest to 100
times the binary64 product `confidence * 100` (the larger one on a tie).
For the canned body (prediction "PNEUMONIA", confidence 0.88, probabilities
0.12 and 0.88, each the nearest binary64 number) the card shows "88.00" on
the Pneumonia branch, with bars "12.00" and "88.00". -/
theorem single_view_confidence (r : SingleResult) (hx : r.confidence.isUnit) :
    ((singleView r).branch = .pneumonia ↔ r.prediction = "PNEUMONIA") ∧
    ((singleView r).branch = .normal ↔ r.prediction ≠ "PNEUMONIA") ∧
    (∃ n : Nat,
      (n : ℚ) ≤ 100 * (r.confidence.mul hundred).toRat + 1 / 2 ∧
      100 * (r.confidence.mul hundred).toRat + 1 / 2 < (n : ℚ) + 1 ∧
      (singleView r).confidence = some (String.mk
        (Nat.toDigits 10 (n / 100) ++
          ['.', Nat.digitChar (n / 10 % 10), Nat.digitChar (n % 10)]))) ∧
    (88 / 100 - 1 / 2 ^ 54 ≤ f088.toRat ∧ f088.toRat ≤ 88 / 100 + 1 / 2 ^ 54) ∧
    (12 / 100 - 1 / 2 ^ 57 ≤ f012.toRat ∧ f012.toRat ≤ 12 / 100 + 1 / 2 ^ 57) ∧
    singleView cannedSingle =
      { branch := .pneumonia, label := "PNEUMONIA", confidence := some "88.00",
        normalBar := some "12.00", pneumoniaBar := some "88.00" } := by
  refine ⟨?_, ?_, ?_, ?_, ?_, by decide⟩
  · unfold singleView
    by_cases h : r.prediction = "PNEUMONIA" <;> simp [h]
  · unfold singleView
    by_cases h : r.prediction = "PNEUMONIA" <;> simp [h]
  · have hs := scaledNearest_spec (r.confidence.mul hundred) 2
    refine ⟨(r.confidence.mul hundred).scaledNearest 2, ?_, ?_, ?_⟩
    · have := hs.1; norm_num at this ⊢; exact this
    · have := hs.2; norm_num at this ⊢; exact this
    · exact percent_format r.confidence hx
  · unfold F64.toRat f088
    norm_num
  · unfold F64.toRat f012
    norm_num

/-- Witness of `single_view_confidence` at the canned body. -/
theorem single_view_confidence_witness :
    cannedSingle.confidence.isUnit ∧
    ((singleView cannedSingle).branch = .pneumonia ↔
      cannedSingle.prediction = "PNEUMONIA") ∧
    (singleView cannedSingle).confidence = some "88.00" :=
  have hx : cannedSingle.confidence.isUnit :=
    ⟨by decide, by decide, by decide, by decide⟩
  have h := single_view_confidence cannedSingle hx
  ⟨hx, h.1, by rw [h.2.2.2.2.2]⟩

end PneumoniaUI
